import Mathlib

/-!
Verification development for `scripts/build_char_index.py`: a batch tool that
reads a word-frequency table, aggregates per-character word frequencies by
maximum, and emits, for each target character, the top-N words ranked by
descending aggregated frequency.

The embedding below translates the two core functions of the script:
`read_wordfreq` (tabular reader with column heuristics and frequency
coercion) and `build_index` (per-character aggregation and ranking).
Python dicts are modelled as insertion-ordered association lists, since the
script's output order among equal-frequency words depends on dict insertion
order.  `sort_values` / `sorted` are modelled as a stable descending sort by
the frequency key (Python's `sorted` is stable; the tie order of
`sort_values`'s quicksort on the tiny arrays used in the concrete
evaluations below coincides with the stable order).
-/

/-- A canonical (word, frequency) record, as produced by the reader
(`df.columns = ['word','freq']`, freq coerced to int). -/
structure Record where
  word : String
  freq : Int
deriving DecidableEq, Repr

/-- A spreadsheet cell: either a numeric value or text.  A pandas column is
read with numeric dtype exactly when every cell is numeric. -/
inductive Cell where
  | num (n : Int)
  | str (s : String)
deriving DecidableEq, Repr

/-- The tabular input after pandas has skipped the two metadata rows and
consumed the header row: a list of column names and the data rows. -/
structure Table where
  header : List String
  rows : List (List Cell)
deriving Repr

/-- Whitespace recognised by `str.strip()` (the forms relevant here). -/
def isWSChar (c : Char) : Bool :=
  c == ' ' || c == '\t' || c == '\n' || c == '\r'

/-- Strip leading and trailing whitespace from a character list. -/
def stripChars (l : List Char) : List Char :=
  ((l.dropWhile isWSChar).reverse.dropWhile isWSChar).reverse

/-- Model of Python `str.strip()`. -/
def strip (s : String) : String := String.mk (stripChars s.data)

/-- Numeric value of a decimal digit character, if it is one. -/
def digitVal (c : Char) : Option Nat :=
  if c.isDigit then some (c.toNat - 48) else none

/-- Accumulating decimal parser over a digit list; fails on a non-digit. -/
def parseDigitsAux (acc : Nat) : List Char → Option Nat
  | [] => some acc
  | c :: cs =>
    match digitVal c with
    | some d => parseDigitsAux (acc * 10 + d) cs
    | none => none

/-- Parse a non-empty all-digit character list as a natural number. -/
def parseDigits : List Char → Option Nat
  | [] => none
  | c :: cs => parseDigitsAux 0 (c :: cs)

/-- Parse an optionally-negated decimal integer from a character list. -/
def parseIntChars : List Char → Option Int
  | '-' :: rest => (parseDigits rest).map (fun n => -(n : Int))
  | l => (parseDigits l).map (fun n => (n : Int))

/-- Model of `pd.to_numeric(cell, errors='coerce')` restricted to integer
cells: a numeric cell parses to its value, a text cell parses only if it is
a decimal integer literal (floats and exotic formats are not exercised by
any property below). -/
def parseCell : Cell → Option Int
  | .num n => some n
  | .str s => parseIntChars (stripChars s.data)

/-- Model of `str(cell)` as applied to the word column. -/
def cellStr : Cell → String
  | .num n => toString n
  | .str s => s

/-- Cell of a row at a column position (missing cells read as empty text). -/
def getCell (row : List Cell) (i : Nat) : Cell :=
  (row.get? i).getD (Cell.str "")

/-- Candidate header names for the word column, in trial order. -/
def word_col_guesses : List String :=
  ["Word", "word", "wordform", "WordForm", "w", "token"]

/-- Candidate header names for the frequency column, in trial order. -/
def freq_col_guesses : List String :=
  ["WCount", "Freq", "freq", "Frequency", "frequency", "FreqCount", "Count"]

/-- Position of the first guessed header name present among the columns
(`for c in guesses: if c in df.columns: ...`). -/
def firstGuessIdx (guesses cols : List String) : Option Nat :=
  guesses.findSome? (fun g => cols.findIdx? (fun c0 => c0 == g))

/-- Whether a cell is numeric (used for the numeric-dtype test on the
second column). -/
def isNumCell : Cell → Bool
  | .num _ => true
  | .str _ => false

/-- Column names after `c.strip()` normalization. -/
def normCols (t : Table) : List String := t.header.map strip

/-- Resolution of the word column: first matching guess, else the first
column; `none` models the IndexError on a table with no columns at all. -/
def wordSel (t : Table) : Option Nat :=
  match firstGuessIdx word_col_guesses (normCols t) with
  | some i => some i
  | none => if (normCols t).isEmpty then none else some 0

/-- Resolution of the frequency column: first matching guess, else the
second column if its values are numeric; `none` means the `__freq__ = 1`
fallback (every record gets frequency 1). -/
def freqSel (t : Table) : Option Nat :=
  match firstGuessIdx freq_col_guesses (normCols t) with
  | some i => some i
  | none =>
    if 1 < (normCols t).length && t.rows.all (fun row => isNumCell (getCell row 1))
    then some 1 else none

/-- One canonical record from one data row: word is the stringified,
stripped word cell; freq is the coerced frequency cell (unparseable → 0),
or the constant 1 in the `__freq__` fallback. -/
def recordOfRow (wi : Nat) (fs : Option Nat) (row : List Cell) : Record :=
  { word := strip (cellStr (getCell row wi)),
    freq :=
      match fs with
      | some j => (parseCell (getCell row j)).getD 0
      | none => 1 }

/-- Embedding of `read_wordfreq` (post file-existence check, post
`read_excel`): resolve the two columns and map every row to a record;
`none` only in the no-columns crash case. -/
def read_wordfreq (t : Table) : Option (List Record) :=
  match wordSel t with
  | none => none
  | some wi => some (t.rows.map (recordOfRow wi (freqSel t)))

/-- Stable insertion step for a descending sort by an integer key: the new
element goes in front of the first element whose key is not greater, so
earlier elements win ties. -/
def insertDescBy {α : Type} (f : α → Int) (a : α) : List α → List α
  | [] => [a]
  | b :: l => if f a < f b then b :: insertDescBy f a l else a :: b :: l

/-- Stable descending sort by an integer key; models the frequency sorts of
the script (`sort_values('freq', ascending=False)` and
`sorted(items, key=lambda t: -t[1])`). -/
def sortDescBy {α : Type} (f : α → Int) (l : List α) : List α :=
  l.foldr (insertDescBy f) []

/-- First-occurrence deduplication worker, carrying the set of characters
already emitted. -/
def dedupFirstAux (seen : List Char) : List Char → List Char
  | [] => []
  | c :: cs =>
    if c ∈ seen then dedupFirstAux seen cs
    else c :: dedupFirstAux (c :: seen) cs

/-- Distinct characters of a list, each at its first occurrence; models
iteration over `set(w)` (whose order is immaterial) and the keys of a
Python dict built by repeated insertion. -/
def dedupFirst (l : List Char) : List Char := dedupFirstAux [] l

/-- Lookup in an insertion-ordered word → frequency association list. -/
def lookupW : List (String × Int) → String → Option Int
  | [], _ => none
  | (w, v) :: rest, w0 => if w = w0 then some v else lookupW rest w0

/-- The dict update `bychar[ch][w] = max(bychar[ch].get(w, 0), f)`: a
present key keeps its position and takes the max with the new value; an
absent key is appended with `max 0 f`. -/
def innerUpdate : List (String × Int) → String → Int → List (String × Int)
  | [], w, f => [(w, max 0 f)]
  | (w0, v) :: rest, w, f =>
    if w0 = w then (w0, max v f) :: rest
    else (w0, v) :: innerUpdate rest w f

/-- `bychar.get(ch, {})`: the per-character word map, empty if absent. -/
def stateGetInner : List (Char × List (String × Int)) → Char → List (String × Int)
  | [], _ => []
  | (c0, m) :: rest, c => if c0 = c then m else stateGetInner rest c

/-- Update of the outer `bychar` dict at one character (created on first
use, as with `defaultdict`). -/
def outerUpdate : List (Char × List (String × Int)) → Char → String → Int →
    List (Char × List (String × Int))
  | [], c, w, f => [(c, innerUpdate [] w f)]
  | (c0, m) :: rest, c, w, f =>
    if c0 = c then (c0, innerUpdate m w f) :: rest
    else (c0, m) :: outerUpdate rest c w f

/-- Aggregated frequency stored in the builder's state for a
(character, word) pair, if present. -/
def stateWordLookup (st : List (Char × List (String × Int))) (c : Char)
    (w : String) : Option Int :=
  lookupW (stateGetInner st c) w

/-- Processing of one record in the aggregation loop: skip an empty word,
otherwise update `bychar[ch][w]` for every distinct character of the word
that belongs to the target set. -/
def processRecord (target : List Char)
    (st : List (Char × List (String × Int))) (r : Record) :
    List (Char × List (String × Int)) :=
  if r.word = "" then st
  else
    (dedupFirst r.word.data).foldl
      (fun st1 ch => if ch ∈ target then outerUpdate st1 ch r.word r.freq else st1)
      st

/-- The aggregation state after the main loop over a record list. -/
def buildState (target : List Char) (records : List Record) :
    List (Char × List (String × Int)) :=
  records.foldl (processRecord target) []

/-- The aggregation state `build_index` actually constructs: the records
are first sorted by descending frequency (`df_sorted`). -/
def buildStateFor (chars : List Char) (records : List Record) :
    List (Char × List (String × Int)) :=
  buildState chars (sortDescBy Record.freq records)

/-- `sorted(words.items(), key=lambda t: -t[1])[:top_n]`, keeping only the
words: stable descending sort by frequency, truncation, projection. -/
def topWords (m : List (String × Int)) (top_n : Nat) : List String :=
  ((sortDescBy Prod.snd m).take top_n).map Prod.fst

/-- Python dict insertion for the output dict: reassigning an existing key
keeps its original position; a new key is appended. -/
def dictInsert : List (Char × List String) → Char → List String →
    List (Char × List String)
  | [], c, v => [(c, v)]
  | (c0, v0) :: rest, c, v =>
    if c0 = c then (c0, v) :: rest
    else (c0, v0) :: dictInsert rest c v

/-- Embedding of the body of `build_index` after the optional conversion
step: aggregate over the frequency-sorted records, then emit the top-N
word list for each target character in caller order. -/
def build_index_core (chars : List Char) (records : List Record)
    (top_n : Nat) : List (Char × List String) :=
  chars.foldl
    (fun out ch =>
      dictInsert out ch (topWords (stateGetInner (buildStateFor chars records) ch) top_n))
    []

/-- Lookup in the output mapping. -/
def outLookup : List (Char × List String) → Char → Option (List String)
  | [], _ => none
  | (c0, v) :: rest, c => if c0 = c then some v else outLookup rest c

/-- The RuntimeError message raised when conversion is requested but the
opencc capability is unavailable. -/
def convErrMsg : String :=
  "opencc required for conversion to simplified but not installed. pip install opencc-python-reimplemented"

/-- Embedding of `build_index` with the injected conversion capability
(`opencc`, `None` when the import failed): if conversion is requested and
the capability is missing, fail before any aggregation; if present,
transform every record's word first; otherwise aggregate directly. -/
def build_index (conv : Option (String → String)) (chars : List Char)
    (records : List Record) (top_n : Nat) (convert_to_simplified : Bool) :
    Except String (List (Char × List String)) :=
  if convert_to_simplified then
    match conv with
    | none => Except.error convErrMsg
    | some f =>
      Except.ok (build_index_core chars
        (records.map (fun r => { word := f r.word, freq := r.freq })) top_n)
  else Except.ok (build_index_core chars records top_n)

/-- A record matches a (character, word) pair when its word is that word,
the word is non-empty, contains the character, and the character is in the
target set — exactly the records that feed `bychar[c][w]`. -/
def MatchesP (chars : List Char) (c : Char) (w : String) (r : Record) : Prop :=
  r.word = w ∧ w ≠ "" ∧ c ∈ w.data ∧ c ∈ chars

instance (chars : List Char) (c : Char) (w : String) (r : Record) :
    Decidable (MatchesP chars c w r) := by
  unfold MatchesP; infer_instance

/-- Boolean form of `MatchesP`, for filtering. -/
def matchesRec (chars : List Char) (c : Char) (w : String) (r : Record) : Bool :=
  decide (MatchesP chars c w r)

/-- Frequencies of the records matching a (character, word) pair, in record
order. -/
def matchFreqs (chars : List Char) (c : Char) (w : String)
    (l : List Record) : List Int :=
  (l.filter (matchesRec chars c w)).map Record.freq

/-- Aggregated frequency of a word for a character in the built state,
read as the ranking reads it (absent words rank as 0). -/
def aggFreq (chars : List Char) (records : List Record) (c : Char)
    (w : String) : Int :=
  (stateWordLookup (buildStateFor chars records) c w).getD 0

/-- Folding the max-update over a frequency list on top of an optional
current value: the closed form of repeated `max(get(w, 0), f)` updates. -/
def combineMax (o : Option Int) (fs : List Int) : Option Int :=
  match o with
  | none => if fs.isEmpty then none else some (fs.foldl max 0)
  | some v => some (fs.foldl max v)

/-- Concrete table for the coercion scenario: named columns, one numeric
and one unparseable frequency cell. -/
def tblC6 : Table :=
  { header := ["Word", "Freq"],
    rows := [[Cell.str "安心", Cell.num 9], [Cell.str "心情", Cell.str "abc"]] }

/-- The records the reader produces from `tblC6`. -/
def recsC6 : List Record := [⟨"安心", 9⟩, ⟨"心情", 0⟩]

/-- Concrete table for the no-identifiable-columns scenario: header names
matching no guess and a non-numeric second column. -/
def tblC7 : Table :=
  { header := ["A", "B"],
    rows := [[Cell.str "你好", Cell.str "xyz"]] }

/-! ## Sorting lemmas -/

theorem insertDescBy_perm {α : Type} (f : α → Int) (a : α) (l : List α) :
    (insertDescBy f a l).Perm (a :: l) := by
  induction l with
  | nil => simp [insertDescBy]
  | cons b l ih =>
    simp only [insertDescBy]
    by_cases h : f a < f b
    · simp only [h, if_pos]
      exact ((ih.cons b).trans (List.Perm.swap a b l)).symm.symm
    · simp [h]

theorem sortDescBy_perm {α : Type} (f : α → Int) (l : List α) :
    (sortDescBy f l).Perm l := by
  induction l with
  | nil => simp [sortDescBy]
  | cons a l ih =>
    simp only [sortDescBy, List.foldr_cons]
    exact (insertDescBy_perm f a _).trans (ih.cons a)

theorem insertDescBy_pairwise {α : Type} (f : α → Int) (a : α) (l : List α)
    (h : l.Pairwise (fun x y => f y ≤ f x)) :
    (insertDescBy f a l).Pairwise (fun x y => f y ≤ f x) := by
  induction l with
  | nil => simp [insertDescBy]
  | cons b l ih =>
    rcases List.pairwise_cons.mp h with ⟨hb, hl⟩
    simp only [insertDescBy]
    by_cases hab : f a < f b
    · rw [if_pos hab]
      refine List.pairwise_cons.mpr ⟨?_, ih hl⟩
      intro x hx
      rcases List.mem_cons.mp ((insertDescBy_perm f a l).mem_iff.mp hx) with rfl | hx2
      · exact le_of_lt hab
      · exact hb x hx2
    · rw [if_neg hab]
      refine List.pairwise_cons.mpr ⟨?_, h⟩
      intro x hx
      rcases List.mem_cons.mp hx with rfl | hx2
      · exact le_of_not_lt hab
      · exact le_trans (hb x hx2) (le_of_not_lt hab)

theorem sortDescBy_pairwise {α : Type} (f : α → Int) (l : List α) :
    (sortDescBy f l).Pairwise (fun x y => f y ≤ f x) := by
  induction l with
  | nil => simp [sortDescBy]
  | cons a l ih =>
    simp only [sortDescBy, List.foldr_cons]
    exact insertDescBy_pairwise f a _ ih

/-! ## Deduplication lemmas -/

theorem mem_dedupFirstAux (x : Char) :
    ∀ (l : List Char) (seen : List Char),
      x ∈ dedupFirstAux seen l ↔ x ∈ l ∧ x ∉ seen := by
  intro l
  induction l with
  | nil => intro seen; simp [dedupFirstAux]
  | cons c cs ih =>
    intro seen
    simp only [dedupFirstAux]
    by_cases hc : c ∈ seen
    · rw [if_pos hc, ih seen]
      simp only [List.mem_cons]
      constructor
      · rintro ⟨h1, h2⟩; exact ⟨Or.inr h1, h2⟩
      · rintro ⟨h1 | h1, h2⟩
        · subst h1; exact absurd hc h2
        · exact ⟨h1, h2⟩
    · rw [if_neg hc]
      simp only [List.mem_cons, ih (c :: seen)]
      constructor
      · rintro (rfl | ⟨h1, h2⟩)
        · exact ⟨Or.inl rfl, hc⟩
        · exact ⟨Or.inr h1, fun hs => h2 (Or.inr hs)⟩
      · rintro ⟨rfl | h1, h2⟩
        · exact Or.inl rfl
        · rcases eq_or_ne x c with rfl | hxc
          · exact Or.inl rfl
          · refine Or.inr ⟨h1, fun hs => ?_⟩
            rcases hs with h3 | h3
            · exact hxc h3
            · exact h2 h3

theorem mem_dedupFirst (x : Char) (l : List Char) :
    x ∈ dedupFirst l ↔ x ∈ l := by
  simp [dedupFirst, mem_dedupFirstAux]

theorem dedupFirstAux_congr :
    ∀ (l : List Char) (s1 s2 : List Char),
      (∀ x, x ∈ s1 ↔ x ∈ s2) → dedupFirstAux s1 l = dedupFirstAux s2 l := by
  intro l
  induction l with
  | nil => intro s1 s2 _; rfl
  | cons c cs ih =>
    intro s1 s2 hs
    simp only [dedupFirstAux]
    by_cases hc : c ∈ s1
    · simp only [hc, (hs c).mp hc, if_pos, ih _ _ hs]
    · have hc2 : c ∉ s2 := fun h => hc ((hs c).mpr h)
      simp only [hc, hc2, if_neg, not_false_iff]
      refine congrArg (c :: ·) (ih _ _ ?_)
      intro x; simp [List.mem_cons, hs x]

theorem nodup_dedupFirstAux :
    ∀ (l : List Char) (seen : List Char), (dedupFirstAux seen l).Nodup := by
  intro l
  induction l with
  | nil => intro seen; simp [dedupFirstAux]
  | cons c cs ih =>
    intro seen
    simp only [dedupFirstAux]
    by_cases hc : c ∈ seen
    · simp only [hc, if_pos]; exact ih seen
    · simp only [hc, if_neg, not_false_iff]
      refine List.nodup_cons.mpr ⟨?_, ih _⟩
      intro hmem
      exact ((mem_dedupFirstAux c cs (c :: seen)).mp hmem).2 (List.mem_cons_self c seen)

theorem nodup_dedupFirst (l : List Char) : (dedupFirst l).Nodup :=
  nodup_dedupFirstAux l []

/-! ## Association-list lemmas for the aggregation state -/

theorem lookupW_innerUpdate_self :
    ∀ (m : List (String × Int)) (w : String) (f : Int),
      lookupW (innerUpdate m w f) w = some (max ((lookupW m w).getD 0) f) := by
  intro m
  induction m with
  | nil => intro w f; simp [innerUpdate, lookupW]
  | cons p rest ih =>
    intro w f
    obtain ⟨w0, v⟩ := p
    by_cases h : w0 = w
    · subst h
      simp [innerUpdate, lookupW]
    · simp only [innerUpdate, h, if_neg, not_false_iff, lookupW, ih]

theorem lookupW_innerUpdate_other :
    ∀ (m : List (String × Int)) (w w1 : String) (f : Int), w ≠ w1 →
      lookupW (innerUpdate m w f) w1 = lookupW m w1 := by
  intro m
  induction m with
  | nil => intro w w1 f h; simp [innerUpdate, lookupW, h]
  | cons p rest ih =>
    intro w w1 f h
    obtain ⟨w0, v⟩ := p
    by_cases h0 : w0 = w
    · subst h0
      simp [innerUpdate, lookupW, h]
    · simp only [innerUpdate, h0, if_neg, not_false_iff, lookupW, ih _ _ _ h]

theorem keys_innerUpdate :
    ∀ (m : List (String × Int)) (w : String) (f : Int),
      (innerUpdate m w f).map Prod.fst =
        if w ∈ m.map Prod.fst then m.map Prod.fst
        else m.map Prod.fst ++ [w] := by
  intro m
  induction m with
  | nil => intro w f; simp [innerUpdate]
  | cons p rest ih =>
    intro w f
    obtain ⟨w0, v⟩ := p
    by_cases h : w0 = w
    · subst h
      simp [innerUpdate]
    · have hne : ¬ w = w0 := fun hh => h hh.symm
      simp only [innerUpdate, h, if_neg, not_false_iff, List.map_cons,
        List.mem_cons, hne, false_or, ih]
      by_cases hw : w ∈ rest.map Prod.fst
      · simp [hw]
      · simp [hw]

theorem nodup_keys_innerUpdate (m : List (String × Int)) (w : String) (f : Int)
    (h : (m.map Prod.fst).Nodup) :
    ((innerUpdate m w f).map Prod.fst).Nodup := by
  rw [keys_innerUpdate]
  by_cases hw : w ∈ m.map Prod.fst
  · simpa [hw] using h
  · simp only [hw, if_neg, not_false_iff]
    rw [List.nodup_append]
    exact ⟨h, List.nodup_singleton w, fun x hx hx1 => hw ((List.mem_singleton.mp hx1) ▸ hx)⟩

theorem mem_keys_lookupW :
    ∀ (m : List (String × Int)) (w : String), w ∈ m.map Prod.fst →
      ∃ v, lookupW m w = some v := by
  intro m
  induction m with
  | nil => intro w h; simp at h
  | cons p rest ih =>
    intro w h
    obtain ⟨w0, v0⟩ := p
    by_cases h0 : w0 = w
    · exact ⟨v0, by simp [lookupW, h0]⟩
    · simp only [List.map_cons, List.mem_cons] at h
      rcases h with h | h
      · exact absurd h.symm h0
      · simpa [lookupW, h0] using ih w h

theorem lookupW_of_mem_nodup :
    ∀ (m : List (String × Int)) (w : String) (v : Int),
      (m.map Prod.fst).Nodup → (w, v) ∈ m → lookupW m w = some v := by
  intro m
  induction m with
  | nil => intro w v _ h; simp at h
  | cons p rest ih =>
    intro w v hnd hmem
    obtain ⟨w0, v0⟩ := p
    rcases List.mem_cons.mp hmem with h | h
    · obtain ⟨rfl, rfl⟩ := Prod.mk.injEq .. ▸ h
      simp [lookupW]
    · have hw : w ∈ rest.map Prod.fst :=
        List.mem_map.mpr ⟨(w, v), h, rfl⟩
      have h0 : w0 ≠ w := by
        intro hh
        exact (List.nodup_cons.mp (by simpa using hnd)).1 (hh ▸ hw)
      simp only [lookupW, h0, if_neg, not_false_iff]
      exact ih w v (List.nodup_cons.mp (by simpa using hnd)).2 h

theorem stateGetInner_outerUpdate_self :
    ∀ (st : List (Char × List (String × Int))) (c : Char) (w : String) (f : Int),
      stateGetInner (outerUpdate st c w f) c = innerUpdate (stateGetInner st c) w f := by
  intro st
  induction st with
  | nil => intro c w f; simp [outerUpdate, stateGetInner]
  | cons p rest ih =>
    intro c w f
    obtain ⟨c0, m⟩ := p
    by_cases h : c0 = c
    · subst h; simp [outerUpdate, stateGetInner]
    · simp only [outerUpdate, h, if_neg, not_false_iff, stateGetInner, ih]

theorem stateGetInner_outerUpdate_other :
    ∀ (st : List (Char × List (String × Int))) (c0 c : Char) (w : String) (f : Int),
      c0 ≠ c → stateGetInner (outerUpdate st c0 w f) c = stateGetInner st c := by
  intro st
  induction st with
  | nil => intro c0 c w f h; simp [outerUpdate, stateGetInner, h]
  | cons p rest ih =>
    intro c0 c w f h
    obtain ⟨c1, m⟩ := p
    by_cases h1 : c1 = c0
    · subst h1; simp [outerUpdate, stateGetInner, h]
    · simp only [outerUpdate, h1, if_neg, not_false_iff, stateGetInner, ih _ _ _ _ h]

/-! ## Characterization of the aggregation loop -/

theorem stateWordLookup_step (st : List (Char × List (String × Int)))
    (target : List Char) (ch : Char) (w0 : String) (f0 : Int) (c : Char) (w : String) :
    stateWordLookup (if ch ∈ target then outerUpdate st ch w0 f0 else st) c w =
      if ch = c ∧ ch ∈ target ∧ w = w0
      then some (max ((stateWordLookup st c w).getD 0) f0)
      else stateWordLookup st c w := by
  by_cases hch : ch ∈ target
  · rw [if_pos hch]
    by_cases hcc : ch = c
    · subst hcc
      by_cases hw : w = w0
      · subst hw
        rw [if_pos ⟨rfl, hch, rfl⟩]
        simp [stateWordLookup, stateGetInner_outerUpdate_self, lookupW_innerUpdate_self]
      · rw [if_neg (fun h => hw h.2.2)]
        simp [stateWordLookup, stateGetInner_outerUpdate_self,
          lookupW_innerUpdate_other _ _ _ _ (fun h => hw h.symm)]
    · rw [if_neg (fun h => hcc h.1)]
      simp [stateWordLookup, stateGetInner_outerUpdate_other _ _ _ _ _ hcc]
  · rw [if_neg hch, if_neg (fun h => hch h.2.1)]

theorem stateWordLookup_foldChars (target : List Char) (w0 : String) (f0 : Int)
    (c : Char) (w : String) :
    ∀ (L : List Char) (st : List (Char × List (String × Int))),
      stateWordLookup
          (L.foldl (fun s ch => if ch ∈ target then outerUpdate s ch w0 f0 else s) st) c w
        = if c ∈ L ∧ c ∈ target ∧ w = w0
          then some (max ((stateWordLookup st c w).getD 0) f0)
          else stateWordLookup st c w := by
  intro L
  induction L with
  | nil => intro st; simp
  | cons ch L ih =>
    intro st
    rw [List.foldl_cons, ih, stateWordLookup_step]
    by_cases hcc : ch = c
    · subst hcc
      by_cases hct : ch ∈ target <;> by_cases hw : w = w0 <;> by_cases hcl : ch ∈ L <;>
        simp [hct, hw, hcl, List.mem_cons, max_assoc]
    · have hcc2 : ¬ (c = ch) := fun h => hcc h.symm
      by_cases hct : c ∈ target <;> by_cases hw : w = w0 <;> by_cases hcl : c ∈ L <;>
        simp [hct, hw, hcl, hcc, hcc2, List.mem_cons]

theorem stateWordLookup_processRecord (target : List Char)
    (st : List (Char × List (String × Int))) (r : Record) (c : Char) (w : String) :
    stateWordLookup (processRecord target st r) c w =
      if MatchesP target c w r
      then some (max ((stateWordLookup st c w).getD 0) r.freq)
      else stateWordLookup st c w := by
  unfold processRecord
  by_cases hw : r.word = ""
  · rw [if_pos hw]
    have hm : ¬ MatchesP target c w r := by
      rintro ⟨h1, h2, _, _⟩
      exact h2 (h1 ▸ hw)
    rw [if_neg hm]
  · rw [if_neg hw, stateWordLookup_foldChars]
    have hiff : (c ∈ dedupFirst r.word.data ∧ c ∈ target ∧ w = r.word) ↔
        MatchesP target c w r := by
      rw [mem_dedupFirst]
      constructor
      · rintro ⟨h1, h2, rfl⟩
        exact ⟨rfl, hw, h1, h2⟩
      · rintro ⟨rfl, _, h3, h4⟩
        exact ⟨h3, h4, rfl⟩
    rw [if_congr hiff rfl rfl]

theorem combineMax_nil (o : Option Int) : combineMax o [] = o := by
  cases o <;> simp [combineMax]

theorem combineMax_cons (o : Option Int) (f : Int) (fs : List Int) :
    combineMax o (f :: fs) = combineMax (some (max (o.getD 0) f)) fs := by
  cases o <;> simp [combineMax]

theorem matchFreqs_cons (chars : List Char) (c : Char) (w : String)
    (r : Record) (l : List Record) :
    matchFreqs chars c w (r :: l) =
      if MatchesP chars c w r then r.freq :: matchFreqs chars c w l
      else matchFreqs chars c w l := by
  by_cases h : MatchesP chars c w r
  · rw [if_pos h]
    simp [matchFreqs, List.filter_cons, matchesRec, h]
  · rw [if_neg h]
    simp [matchFreqs, List.filter_cons, matchesRec, h]

theorem stateWordLookup_buildState_from (target : List Char) (c : Char) (w : String) :
    ∀ (l : List Record) (st : List (Char × List (String × Int))),
      stateWordLookup (l.foldl (processRecord target) st) c w =
        combineMax (stateWordLookup st c w) (matchFreqs target c w l) := by
  intro l
  induction l with
  | nil => intro st; simp [matchFreqs, combineMax_nil]
  | cons r rest ih =>
    intro st
    rw [List.foldl_cons, ih, stateWordLookup_processRecord, matchFreqs_cons]
    by_cases h : MatchesP target c w r
    · rw [if_pos h, if_pos h, combineMax_cons]
    · rw [if_neg h, if_neg h]

theorem stateWordLookup_buildState (target : List Char) (l : List Record)
    (c : Char) (w : String) :
    stateWordLookup (buildState target l) c w =
      combineMax none (matchFreqs target c w l) := by
  unfold buildState
  rw [stateWordLookup_buildState_from]
  rfl

/-! ## Facts about folded maxima -/

theorem le_foldl_max : ∀ (fs : List Int) (a : Int), a ≤ fs.foldl max a := by
  intro fs
  induction fs with
  | nil => intro a; simp
  | cons f fs ih =>
    intro a
    exact le_trans (le_max_left a f) (ih (max a f))

theorem mem_le_foldl_max :
    ∀ (fs : List Int) (a f : Int), f ∈ fs → f ≤ fs.foldl max a := by
  intro fs
  induction fs with
  | nil => intro a f h; simp at h
  | cons f0 fs ih =>
    intro a f h
    rcases List.mem_cons.mp h with rfl | h
    · exact le_trans (le_max_right a f) (le_foldl_max fs (max a f))
    · exact ih (max a f0) f h

theorem foldl_max_mem_or_eq :
    ∀ (fs : List Int) (a : Int), fs.foldl max a = a ∨ fs.foldl max a ∈ fs := by
  intro fs
  induction fs with
  | nil => intro a; exact Or.inl rfl
  | cons f fs ih =>
    intro a
    rcases ih (max a f) with h | h
    · rcases max_choice a f with hm | hm
      · exact Or.inl (by rw [List.foldl_cons, h, hm])
      · refine Or.inr (List.mem_cons.mpr (Or.inl ?_))
        rw [List.foldl_cons, h, hm]
    · exact Or.inr (List.mem_cons.mpr (Or.inr (by rw [List.foldl_cons]; exact h)))

theorem foldl_max_of_le :
    ∀ (fs : List Int) (a : Int), (∀ f ∈ fs, f ≤ a) → fs.foldl max a = a := by
  intro fs
  induction fs with
  | nil => intro a _; rfl
  | cons f fs ih =>
    intro a h
    rw [List.foldl_cons, max_eq_left (h f (List.mem_cons_self f fs))]
    exact ih a (fun g hg => h g (List.mem_cons_of_mem f hg))

/-! ## Nodup invariant for the per-character word maps -/

theorem nodup_keys_outerUpdate (st : List (Char × List (String × Int)))
    (ch : Char) (w : String) (f : Int)
    (h : ∀ c, ((stateGetInner st c).map Prod.fst).Nodup) (c : Char) :
    ((stateGetInner (outerUpdate st ch w f) c).map Prod.fst).Nodup := by
  by_cases hc : ch = c
  · subst hc
    rw [stateGetInner_outerUpdate_self]
    exact nodup_keys_innerUpdate _ _ _ (h ch)
  · rw [stateGetInner_outerUpdate_other _ _ _ _ _ hc]
    exact h c

theorem nodup_keys_foldChars (target : List Char) (w0 : String) (f0 : Int) :
    ∀ (L : List Char) (st : List (Char × List (String × Int))),
      (∀ c, ((stateGetInner st c).map Prod.fst).Nodup) →
      ∀ c, ((stateGetInner
        (L.foldl (fun s ch => if ch ∈ target then outerUpdate s ch w0 f0 else s) st) c).map
          Prod.fst).Nodup := by
  intro L
  induction L with
  | nil => intro st h c; exact h c
  | cons ch L ih =>
    intro st h c
    rw [List.foldl_cons]
    refine ih _ (fun c1 => ?_) c
    by_cases hch : ch ∈ target
    · rw [if_pos hch]
      exact nodup_keys_outerUpdate st ch w0 f0 h c1
    · rw [if_neg hch]
      exact h c1

theorem nodup_keys_processRecord (target : List Char)
    (st : List (Char × List (String × Int))) (r : Record)
    (h : ∀ c, ((stateGetInner st c).map Prod.fst).Nodup) (c : Char) :
    ((stateGetInner (processRecord target st r) c).map Prod.fst).Nodup := by
  unfold processRecord
  by_cases hw : r.word = ""
  · rw [if_pos hw]; exact h c
  · rw [if_neg hw]
    exact nodup_keys_foldChars target r.word r.freq _ st h c

theorem nodup_keys_buildState_from (target : List Char) :
    ∀ (l : List Record) (st : List (Char × List (String × Int))),
      (∀ c, ((stateGetInner st c).map Prod.fst).Nodup) →
      ∀ c, ((stateGetInner (l.foldl (processRecord target) st) c).map Prod.fst).Nodup := by
  intro l
  induction l with
  | nil => intro st h c; exact h c
  | cons r rest ih =>
    intro st h c
    rw [List.foldl_cons]
    exact ih _ (fun c1 => nodup_keys_processRecord target st r h c1) c

theorem nodup_keys_buildState (target : List Char) (l : List Record) (c : Char) :
    ((stateGetInner (buildState target l) c).map Prod.fst).Nodup := by
  unfold buildState
  exact nodup_keys_buildState_from target l [] (fun _ => by simp [stateGetInner]) c

/-! ## Characterization of the output mapping -/

theorem outLookup_dictInsert_self :
    ∀ (o : List (Char × List String)) (c : Char) (v : List String),
      outLookup (dictInsert o c v) c = some v := by
  intro o
  induction o with
  | nil => intro c v; simp [dictInsert, outLookup]
  | cons p rest ih =>
    intro c v
    obtain ⟨c0, v0⟩ := p
    by_cases h : c0 = c
    · subst h; simp [dictInsert, outLookup]
    · simp only [dictInsert, h, if_neg, not_false_iff, outLookup, ih]

theorem outLookup_dictInsert_other :
    ∀ (o : List (Char × List String)) (c0 c : Char) (v : List String), c0 ≠ c →
      outLookup (dictInsert o c0 v) c = outLookup o c := by
  intro o
  induction o with
  | nil => intro c0 c v h; simp [dictInsert, outLookup, h]
  | cons p rest ih =>
    intro c0 c v h
    obtain ⟨c1, v1⟩ := p
    by_cases h1 : c1 = c0
    · subst h1; simp [dictInsert, outLookup, h]
    · simp only [dictInsert, h1, if_neg, not_false_iff, outLookup, ih _ _ _ h]

theorem outLookup_foldDict (F : Char → List String) :
    ∀ (cs : List Char) (acc : List (Char × List String)) (c : Char),
      outLookup (cs.foldl (fun o ch => dictInsert o ch (F ch)) acc) c =
        if c ∈ cs then some (F c) else outLookup acc c := by
  intro cs
  induction cs with
  | nil => intro acc c; simp
  | cons ch cs ih =>
    intro acc c
    rw [List.foldl_cons, ih]
    by_cases hcs : c ∈ cs
    · simp [hcs, List.mem_cons]
    · by_cases hch : ch = c
      · subst hch
        simp [hcs, outLookup_dictInsert_self]
      · have : ¬ c = ch := fun h => hch h.symm
        simp [hcs, this, outLookup_dictInsert_other _ _ _ _ hch]

theorem outLookup_build_index_core (chars : List Char) (records : List Record)
    (top_n : Nat) (c : Char) :
    outLookup (build_index_core chars records top_n) c =
      if c ∈ chars
      then some (topWords (stateGetInner (buildStateFor chars records) c) top_n)
      else none := by
  unfold build_index_core
  rw [outLookup_foldDict]
  rfl

/-! ## Facts about the top-N word lists -/

theorem mem_topWords (m : List (String × Int)) (n : Nat) (w : String)
    (h : w ∈ topWords m n) : ∃ v, (w, v) ∈ m := by
  unfold topWords at h
  rcases List.mem_map.mp h with ⟨p, hp, rfl⟩
  have h1 : p ∈ sortDescBy Prod.snd m := List.take_subset _ _ hp
  have h2 : p ∈ m := (sortDescBy_perm Prod.snd m).mem_iff.mp h1
  exact ⟨p.2, by simpa using h2⟩

theorem topWords_length_le (m : List (String × Int)) (n : Nat) :
    (topWords m n).length ≤ n := by
  unfold topWords
  rw [List.length_map]
  exact le_trans (List.length_take_le n _) (le_refl n)

theorem topWords_pairwise (m : List (String × Int)) (n : Nat)
    (hnd : (m.map Prod.fst).Nodup) :
    (topWords m n).Pairwise
      (fun w1 w2 => (lookupW m w2).getD 0 ≤ (lookupW m w1).getD 0) := by
  unfold topWords
  have hp : ((sortDescBy Prod.snd m).take n).Pairwise (fun p q => q.2 ≤ p.2) :=
    List.Pairwise.sublist (List.take_sublist n _) (sortDescBy_pairwise Prod.snd m)
  rw [List.pairwise_map]
  refine hp.imp_of_mem ?_
  intro p q hpmem hqmem hle
  have hpm : p ∈ m := (sortDescBy_perm Prod.snd m).mem_iff.mp (List.take_subset _ _ hpmem)
  have hqm : q ∈ m := (sortDescBy_perm Prod.snd m).mem_iff.mp (List.take_subset _ _ hqmem)
  rw [lookupW_of_mem_nodup m p.1 p.2 hnd (by simpa using hpm),
    lookupW_of_mem_nodup m q.1 q.2 hnd (by simpa using hqm)]
  simpa using hle

theorem out_pairwise_agg (chars : List Char) (records : List Record) (top_n : Nat)
    (c : Char) (l : List String)
    (hl : outLookup (build_index_core chars records top_n) c = some l) :
    l.Pairwise (fun w1 w2 => aggFreq chars records c w2 ≤ aggFreq chars records c w1) := by
  rw [outLookup_build_index_core] at hl
  by_cases hc : c ∈ chars
  · rw [if_pos hc] at hl
    injection hl with hl
    subst hl
    have hnd : ((stateGetInner (buildStateFor chars records) c).map Prod.fst).Nodup := by
      unfold buildStateFor
      exact nodup_keys_buildState chars _ c
    have hpw := topWords_pairwise (stateGetInner (buildStateFor chars records) c) top_n hnd
    simpa [aggFreq, stateWordLookup] using hpw
  · rw [if_neg hc] at hl
    cases hl

/-! ## Keys and idempotence of the output dict fold -/

theorem keys_dictInsert :
    ∀ (o : List (Char × List String)) (c : Char) (v : List String),
      (dictInsert o c v).map Prod.fst =
        if c ∈ o.map Prod.fst then o.map Prod.fst else o.map Prod.fst ++ [c] := by
  intro o
  induction o with
  | nil => intro c v; simp [dictInsert]
  | cons p rest ih =>
    intro c v
    obtain ⟨c0, v0⟩ := p
    by_cases h : c0 = c
    · subst h; simp [dictInsert]
    · have hne : ¬ c = c0 := fun hh => h hh.symm
      simp only [dictInsert, h, if_neg, not_false_iff, List.map_cons,
        List.mem_cons, hne, false_or, ih]
      by_cases hc : c ∈ rest.map Prod.fst
      · simp [hc]
      · simp [hc]

theorem dictInsert_inv (F : Char → List String) :
    ∀ (o : List (Char × List String)) (c : Char),
      (∀ p ∈ o, p.2 = F p.1) → ∀ p ∈ dictInsert o c (F c), p.2 = F p.1 := by
  intro o
  induction o with
  | nil =>
    intro c _ p hp
    simp only [dictInsert, List.mem_singleton] at hp
    subst hp; rfl
  | cons q rest ih =>
    intro c h p hp
    obtain ⟨c0, v0⟩ := q
    by_cases hc : c0 = c
    · subst hc
      simp only [dictInsert, if_pos] at hp
      rcases List.mem_cons.mp hp with rfl | hp
      · rfl
      · exact h p (List.mem_cons_of_mem _ hp)
    · simp only [dictInsert, hc, if_neg, not_false_iff] at hp
      rcases List.mem_cons.mp hp with rfl | hp
      · exact h _ (List.mem_cons_self _ _)
      · exact ih c (fun q hq => h q (List.mem_cons_of_mem _ hq)) p hp

theorem dictInsert_id_of_mem (F : Char → List String) :
    ∀ (o : List (Char × List String)) (c : Char),
      (∀ p ∈ o, p.2 = F p.1) → c ∈ o.map Prod.fst → dictInsert o c (F c) = o := by
  intro o
  induction o with
  | nil => intro c _ h; simp at h
  | cons q rest ih =>
    intro c h hmem
    obtain ⟨c0, v0⟩ := q
    by_cases hc : c0 = c
    · subst hc
      have : v0 = F c0 := h (c0, v0) (List.mem_cons_self _ _)
      simp [dictInsert, this]
    · simp only [List.map_cons, List.mem_cons] at hmem
      rcases hmem with hmem | hmem
      · exact absurd hmem.symm hc
      · simp only [dictInsert, hc, if_neg, not_false_iff]
        rw [ih c (fun q hq => h q (List.mem_cons_of_mem _ hq)) hmem]

theorem mem_keys_dictInsert (o : List (Char × List String)) (c0 : Char)
    (v : List String) (c : Char) (h : c ∈ o.map Prod.fst) :
    c ∈ (dictInsert o c0 v).map Prod.fst := by
  rw [keys_dictInsert]
  by_cases h0 : c0 ∈ o.map Prod.fst
  · simpa [h0] using h
  · simp only [h0, if_neg, not_false_iff]
    exact List.mem_append_left _ h

theorem self_mem_keys_dictInsert (o : List (Char × List String)) (c : Char)
    (v : List String) : c ∈ (dictInsert o c v).map Prod.fst := by
  rw [keys_dictInsert]
  by_cases h0 : c ∈ o.map Prod.fst
  · simp [h0]
  · simp only [h0, if_neg, not_false_iff]
    exact List.mem_append_right _ (List.mem_singleton.mpr rfl)

theorem foldDict_dedupFirstAux (F : Char → List String) :
    ∀ (cs : List Char) (acc : List (Char × List String)) (seen : List Char),
      (∀ p ∈ acc, p.2 = F p.1) → (∀ s ∈ seen, s ∈ acc.map Prod.fst) →
      (dedupFirstAux seen cs).foldl (fun o ch => dictInsert o ch (F ch)) acc =
        cs.foldl (fun o ch => dictInsert o ch (F ch)) acc := by
  intro cs
  induction cs with
  | nil => intro acc seen _ _; rfl
  | cons c cs ih =>
    intro acc seen hinv hseen
    simp only [dedupFirstAux, List.foldl_cons]
    by_cases hc : c ∈ seen
    · rw [if_pos hc, dictInsert_id_of_mem F acc c hinv (hseen c hc)]
      exact ih acc seen hinv hseen
    · rw [if_neg hc, List.foldl_cons]
      refine ih (dictInsert acc c (F c)) (c :: seen) (dictInsert_inv F acc c hinv) ?_
      intro s hs
      rcases List.mem_cons.mp hs with rfl | hs
      · exact self_mem_keys_dictInsert acc s (F s)
      · exact mem_keys_dictInsert acc c (F c) s (hseen s hs)

theorem keys_foldDict (F : Char → List String) :
    ∀ (cs : List Char) (acc : List (Char × List String)),
      (cs.foldl (fun o ch => dictInsert o ch (F ch)) acc).map Prod.fst =
        acc.map Prod.fst ++ dedupFirstAux (acc.map Prod.fst) cs := by
  intro cs
  induction cs with
  | nil => intro acc; simp [dedupFirstAux]
  | cons c cs ih =>
    intro acc
    rw [List.foldl_cons, ih]
    simp only [dedupFirstAux]
    by_cases hc : c ∈ acc.map Prod.fst
    · rw [if_pos hc, keys_dictInsert, if_pos hc]
    · rw [if_neg hc, keys_dictInsert, if_neg hc, List.append_assoc]
      refine congrArg (acc.map Prod.fst ++ ·) ?_
      rw [List.singleton_append]
      refine congrArg (c :: ·) (dedupFirstAux_congr cs _ _ ?_)
      intro x
      simp [List.mem_append, List.mem_cons, or_comm]

theorem buildState_congr (t1 t2 : List Char) (h : ∀ x, x ∈ t1 ↔ x ∈ t2) :
    ∀ (l : List Record), buildState t1 l = buildState t2 l := by
  have hrec : ∀ st r, processRecord t1 st r = processRecord t2 st r := by
    intro st r
    unfold processRecord
    by_cases hw : r.word = ""
    · rw [if_pos hw, if_pos hw]
    · rw [if_neg hw, if_neg hw]
      refine List.foldl_ext _ _ st (fun s ch _ => ?_)
      exact if_congr (h ch) rfl rfl
  intro l
  unfold buildState
  exact List.foldl_ext _ _ [] (fun st r _ => hrec st r)

/-! ## Helpers connecting state lookups to matching records -/

theorem matchFreqs_perm (chars : List Char) (c : Char) (w : String)
    (l1 l2 : List Record) (h : l1.Perm l2) :
    (matchFreqs chars c w l1).Perm (matchFreqs chars c w l2) := by
  unfold matchFreqs
  exact (h.filter _).map _

theorem mem_matchFreqs (chars : List Char) (c : Char) (w : String)
    (l : List Record) (f : Int) :
    f ∈ matchFreqs chars c w l ↔
      ∃ r, r ∈ l ∧ MatchesP chars c w r ∧ r.freq = f := by
  unfold matchFreqs matchesRec
  constructor
  · intro h
    rcases List.mem_map.mp h with ⟨r, hr, rfl⟩
    rcases List.mem_filter.mp hr with ⟨h1, h2⟩
    exact ⟨r, h1, of_decide_eq_true h2, rfl⟩
  · rintro ⟨r, h1, h2, rfl⟩
    exact List.mem_map.mpr ⟨r, List.mem_filter.mpr ⟨h1, decide_eq_true h2⟩, rfl⟩

theorem stateWordLookup_some_spec (chars : List Char) (records : List Record)
    (c : Char) (w : String) (v : Int)
    (hv : stateWordLookup (buildStateFor chars records) c w = some v) :
    matchFreqs chars c w (sortDescBy Record.freq records) ≠ [] ∧
    v = (matchFreqs chars c w (sortDescBy Record.freq records)).foldl max 0 := by
  unfold buildStateFor at hv
  rw [stateWordLookup_buildState] at hv
  simp only [combineMax] at hv
  by_cases hnil : (matchFreqs chars c w (sortDescBy Record.freq records)).isEmpty
  · rw [if_pos hnil] at hv
    cases hv
  · rw [if_neg hnil] at hv
    injection hv with hv
    exact ⟨fun h => hnil (by simp [h]), hv.symm⟩

/-! ## The claims -/

/-- C1: for every target character set and record sequence of canonical
frequency records (frequencies are nonnegative by the data model), the
aggregated frequency stored in the builder's state for a (character, word)
pair equals the maximum freq value over all records whose word contains
that character and equals that word — it is a member of the matching
frequencies and an upper bound of them, hence the maximum, not the sum
across duplicate rows. -/
theorem claim_C1_max_not_sum (chars : List Char) (records : List Record)
    (c : Char) (w : String) (v : Int)
    (hpos : ∀ r ∈ records, 0 ≤ r.freq)
    (hv : stateWordLookup (buildStateFor chars records) c w = some v) :
    v ∈ matchFreqs chars c w records ∧
    ∀ f ∈ matchFreqs chars c w records, f ≤ v := by
  obtain ⟨hne, hval⟩ := stateWordLookup_some_spec chars records c w v hv
  have hperm : (matchFreqs chars c w (sortDescBy Record.freq records)).Perm
      (matchFreqs chars c w records) :=
    matchFreqs_perm chars c w _ _ (sortDescBy_perm Record.freq records)
  have hnn : ∀ f ∈ matchFreqs chars c w (sortDescBy Record.freq records), 0 ≤ f := by
    intro f hf
    rcases (mem_matchFreqs chars c w _ f).mp hf with ⟨r, hr, _, rfl⟩
    exact hpos r ((sortDescBy_perm Record.freq records).mem_iff.mp hr)
  have hmem : v ∈ matchFreqs chars c w (sortDescBy Record.freq records) := by
    rcases foldl_max_mem_or_eq (matchFreqs chars c w (sortDescBy Record.freq records)) 0 with
      h0 | hm
    · rcases List.exists_mem_of_ne_nil _ hne with ⟨f0, hf0⟩
      have h1 : f0 ≤ v := hval ▸ mem_le_foldl_max _ 0 f0 hf0
      have h2 : 0 ≤ f0 := hnn f0 hf0
      have h3 : v = 0 := hval.trans h0
      have : f0 = v := le_antisymm h1 (h3 ▸ h2)
      exact this ▸ hf0
    · exact hval ▸ hm
  constructor
  · exact hperm.mem_iff.mp hmem
  · intro f hf
    exact hval ▸ mem_le_foldl_max _ 0 f (hperm.mem_iff.mpr hf)

/-- C1 witness: two duplicate rows for the word 爱 with frequencies 10 and
4 aggregate to 10 (the maximum), not 14 (the sum). -/
theorem claim_C1_max_not_sum_witness :
    (10 : Int) ∈ matchFreqs ['爱'] '爱' "爱" [⟨"爱", 10⟩, ⟨"爱", 4⟩] ∧
    ∀ f ∈ matchFreqs ['爱'] '爱' "爱" [⟨"爱", 10⟩, ⟨"爱", 4⟩], f ≤ 10 :=
  claim_C1_max_not_sum ['爱'] [⟨"爱", 10⟩, ⟨"爱", 4⟩] '爱' "爱" 10
    (by decide) (by decide)

/-- C2 counterexample: with corpus rows 心情 then 安心, both at frequency 7
for the character 心, the output list is ["心情", "安心"], although 安心 is
lexicographically smaller than 心情 (the lexicographic order of the words
is that of their character sequences) — equal-frequency words are NOT
emitted in ascending lexicographic order, and the claimed order
["安心", "心情"] is not produced for this row order. -/
theorem claim_C2_tiebreak_counterexample :
    outLookup (build_index_core ['心'] [⟨"心情", 7⟩, ⟨"安心", 7⟩] 3) '心' =
      some ["心情", "安心"] ∧
    aggFreq ['心'] [⟨"心情", 7⟩, ⟨"安心", 7⟩] '心' "心情" = 7 ∧
    aggFreq ['心'] [⟨"心情", 7⟩, ⟨"安心", 7⟩] '心' "安心" = 7 ∧
    "安心".data < "心情".data := by
  refine ⟨by decide, by decide, by decide, ?_⟩
  decide

/-- C2 (amended): every output list is sorted by descending aggregated
frequency, but two words with equal aggregated frequency appear in the
order of their first insertion into the per-character state — the row order
of the frequency-sorted table — not in ascending lexicographic order: the
tie between 心情 and 安心 at frequency 7 is resolved by corpus row order,
in either direction. -/
theorem claim_C2_desc_roworder_ties :
    (∀ (chars : List Char) (records : List Record) (top_n : Nat) (c : Char)
      (l : List String),
      outLookup (build_index_core chars records top_n) c = some l →
      l.Pairwise (fun w1 w2 => aggFreq chars records c w2 ≤ aggFreq chars records c w1)) ∧
    outLookup (build_index_core ['心'] [⟨"心情", 7⟩, ⟨"安心", 7⟩] 3) '心' =
      some ["心情", "安心"] ∧
    outLookup (build_index_core ['心'] [⟨"安心", 7⟩, ⟨"心情", 7⟩] 3) '心' =
      some ["安心", "心情"] := by
  refine ⟨?_, by decide, by decide⟩
  intro chars records top_n c l hl
  exact out_pairwise_agg chars records top_n c l hl

/-- C2 witness: the descending-frequency sortedness of the amended claim,
instantiated at the tied 心情/安心 corpus. -/
theorem claim_C2_desc_roworder_ties_witness :
    (["心情", "安心"] : List String).Pairwise
      (fun w1 w2 => aggFreq ['心'] [⟨"心情", 7⟩, ⟨"安心", 7⟩] '心' w2 ≤
        aggFreq ['心'] [⟨"心情", 7⟩, ⟨"安心", 7⟩] '心' w1) :=
  claim_C2_desc_roworder_ties.1 ['心'] [⟨"心情", 7⟩, ⟨"安心", 7⟩] 3 '心'
    ["心情", "安心"] (by decide)

/-- C3: every word in the built index entry for a target character contains
that character as one of its constituent characters. -/
theorem claim_C3_words_contain_char (chars : List Char) (records : List Record)
    (top_n : Nat) (c : Char) (l : List String) (w : String)
    (hl : outLookup (build_index_core chars records top_n) c = some l)
    (hw : w ∈ l) : c ∈ w.data := by
  rw [outLookup_build_index_core] at hl
  by_cases hc : c ∈ chars
  · rw [if_pos hc] at hl
    injection hl with hl
    subst hl
    rcases mem_topWords _ _ _ hw with ⟨v, hv⟩
    have hkey : w ∈ (stateGetInner (buildStateFor chars records) c).map Prod.fst :=
      List.mem_map.mpr ⟨(w, v), hv, rfl⟩
    rcases mem_keys_lookupW _ _ hkey with ⟨v0, hv0⟩
    have hlook : stateWordLookup (buildStateFor chars records) c w = some v0 := hv0
    obtain ⟨hne, _⟩ := stateWordLookup_some_spec chars records c w v0 hlook
    rcases List.exists_mem_of_ne_nil _ hne with ⟨f0, hf0⟩
    rcases (mem_matchFreqs chars c w _ f0).mp hf0 with ⟨r, _, hm, _⟩
    exact hm.2.2.1
  · rw [if_neg hc] at hl
    cases hl

/-- C3 witness: in the index for 心 built from the single record 心情, the
listed word 心情 does contain 心. -/
theorem claim_C3_words_contain_char_witness : '心' ∈ "心情".data :=
  claim_C3_words_contain_char ['心'] [⟨"心情", 7⟩] 3 '心' ["心情"] "心情"
    (by decide) (by decide)

/-- C4: for every positive top-N, the output list of each character has
length at most top-N (the script truncates with a slice). -/
theorem claim_C4_length_le (chars : List Char) (records : List Record)
    (top_n : Nat) (c : Char) (l : List String)
    (_htop : 0 < top_n)
    (hl : outLookup (build_index_core chars records top_n) c = some l) :
    l.length ≤ top_n := by
  rw [outLookup_build_index_core] at hl
  by_cases hc : c ∈ chars
  · rw [if_pos hc] at hl
    injection hl with hl
    subst hl
    exact topWords_length_le _ _
  · rw [if_neg hc] at hl
    cases hl

/-- C4 witness: with top-N = 1 and two candidate words for 心, the output
list has length 1. -/
theorem claim_C4_length_le_witness : (["心情"] : List String).length ≤ 1 :=
  claim_C4_length_le ['心'] [⟨"心情", 7⟩, ⟨"安心", 7⟩] 1 '心' ["心情"]
    (by decide) (by decide)

/-- C5: a target character occurring in no word of the record sequence is
still a key of the built index, mapped to the empty list. -/
theorem claim_C5_empty_entry (chars : List Char) (records : List Record)
    (top_n : Nat) (c : Char)
    (hc : c ∈ chars)
    (hno : ∀ r ∈ records, c ∉ r.word.data) :
    outLookup (build_index_core chars records top_n) c = some [] := by
  rw [outLookup_build_index_core, if_pos hc]
  refine congrArg some (List.eq_nil_iff_forall_not_mem.mpr (fun w hw => ?_))
  rcases mem_topWords _ _ _ hw with ⟨v, hv⟩
  have hkey : w ∈ (stateGetInner (buildStateFor chars records) c).map Prod.fst :=
    List.mem_map.mpr ⟨(w, v), hv, rfl⟩
  rcases mem_keys_lookupW _ _ hkey with ⟨v0, hv0⟩
  have hlook : stateWordLookup (buildStateFor chars records) c w = some v0 := hv0
  obtain ⟨hne, _⟩ := stateWordLookup_some_spec chars records c w v0 hlook
  rcases List.exists_mem_of_ne_nil _ hne with ⟨f0, hf0⟩
  rcases (mem_matchFreqs chars c w _ f0).mp hf0 with ⟨r, hr, hm, _⟩
  have hrrec : r ∈ records := (sortDescBy_perm Record.freq records).mem_iff.mp hr
  exact hno r hrrec (hm.1 ▸ hm.2.2.1)

/-- C5 witness: the character 龙 appears in no corpus word, and its entry
is the empty list (the key is present). -/
theorem claim_C5_empty_entry_witness :
    outLookup (build_index_core ['龙'] [⟨"心情", 7⟩] 3) '龙' = some [] :=
  claim_C5_empty_entry ['龙'] [⟨"心情", 7⟩] 3 '龙' (by decide) (by decide)

/-- C6: an unparseable frequency cell is coerced to 0, not an error — the
reader still returns a record list of the same length as the row list, the
affected row's record keeps its word with frequency 0 — and in the ranking
a word whose aggregated frequency is 0 appears strictly after any word of
the same character with positive aggregated frequency. -/
theorem claim_C6_coerce_unparseable_to_zero :
    (∀ (t : Table) (wi j : Nat) (records : List Record) (i : Nat) (row : List Cell),
      wordSel t = some wi → freqSel t = some j →
      read_wordfreq t = some records →
      t.rows[i]? = some row → parseCell (getCell row j) = none →
      records.length = t.rows.length ∧
      records[i]? = some { word := strip (cellStr (getCell row wi)), freq := 0 }) ∧
    (∀ (chars : List Char) (records : List Record) (top_n : Nat) (c : Char)
      (l : List String) (w1 w0 : String) (i j : Nat)
      (hi : i < l.length) (hj : j < l.length),
      outLookup (build_index_core chars records top_n) c = some l →
      l.get ⟨i, hi⟩ = w1 → l.get ⟨j, hj⟩ = w0 →
      0 < aggFreq chars records c w1 → aggFreq chars records c w0 = 0 →
      i < j) := by
  constructor
  · intro t wi j records i row hw hf hr hrow hpc
    unfold read_wordfreq at hr
    rw [hw] at hr
    injection hr with hr
    subst hr
    refine ⟨List.length_map _ _, ?_⟩
    rw [List.getElem?_map, hrow]
    simp [recordOfRow, hf, hpc]
  · intro chars records top_n c l w1 w0 i j hi hj hl h1 h2 hpos hzero
    have hpw := out_pairwise_agg chars records top_n c l hl
    rcases lt_trichotomy i j with h | h | h
    · exact h
    · exfalso
      subst h
      have hww : w1 = w0 := h1.symm.trans h2
      rw [hww, hzero] at hpos
      exact lt_irrefl 0 hpos
    · exfalso
      have hle := (List.pairwise_iff_get.mp hpw) ⟨j, hj⟩ ⟨i, hi⟩ h
      rw [h1, h2, hzero] at hle
      exact (not_lt.mpr hle) hpos

/-- C6 witness: in a table with named columns Word and Freq, row 1 carries
the unparseable frequency cell "abc"; the reader keeps the row as the
record (心情, 0), and in the index for 心 the word 安心 (aggregated
frequency 9) precedes 心情 (aggregated frequency 0). -/
theorem claim_C6_coerce_unparseable_to_zero_witness :
    (recsC6.length = tblC6.rows.length ∧
      recsC6[1]? = some { word := "心情", freq := 0 }) ∧
    (0 : Nat) < 1 := by
  constructor
  · have h := claim_C6_coerce_unparseable_to_zero.1 tblC6 0 1 recsC6 1
      [Cell.str "心情", Cell.str "abc"]
      (by decide) (by decide) (by decide) (by decide) (by decide)
    exact ⟨h.1, h.2.trans (by decide)⟩
  · exact claim_C6_coerce_unparseable_to_zero.2 ['心'] recsC6 3 '心'
      ["安心", "心情"] "安心" "心情" 0 1 (by decide) (by decide)
      (by decide) (by decide) (by decide) (by decide) (by decide)

/-- C7: on a table in which no column name matches any guess and the second
column is not numeric, the reader does NOT fail — it silently falls back to
the first column as the word column and to `__freq__ = 1` presence-only
ranking, returning a record with frequency 1.  This contradicts the
specified fatal configuration error; the spec itself flags the silent
default as a known gap of the code. -/
theorem claim_C7_reader_silently_defaults :
    read_wordfreq tblC7 = some [{ word := "你好", freq := 1 }] ∧
    firstGuessIdx word_col_guesses (normCols tblC7) = none ∧
    firstGuessIdx freq_col_guesses (normCols tblC7) = none ∧
    freqSel tblC7 = none := by
  refine ⟨by decide, by decide, by decide, by decide⟩

/-- C8: if script conversion is requested and the capability is absent, the
builder fails with the fatal error before any aggregation (the result is
the error, no index is produced); if the capability is present, building
with conversion equals building without conversion on the records whose
words have each been transformed by the capability first. -/
theorem claim_C8_conversion_capability :
    (∀ (chars : List Char) (records : List Record) (top_n : Nat),
      build_index none chars records top_n true = Except.error convErrMsg) ∧
    (∀ (f : String → String) (chars : List Char) (records : List Record) (top_n : Nat),
      build_index (some f) chars records top_n true =
        build_index (some f) chars
          (records.map (fun r => { word := f r.word, freq := r.freq })) top_n false) := by
  exact ⟨fun _ _ _ => rfl, fun _ _ _ _ => rfl⟩

/-- C9: the output dict has exactly one key per distinct target character,
at the position of the character's first occurrence (its key sequence is
the first-occurrence deduplication of the input), and a duplicated
character yields the same index as listing it once; `dedupFirst` has no
duplicates and exactly the members of the input. -/
theorem claim_C9_one_key_first_occurrence :
    ∀ (chars : List Char) (records : List Record) (top_n : Nat),
      (build_index_core chars records top_n).map Prod.fst = dedupFirst chars ∧
      build_index_core chars records top_n =
        build_index_core (dedupFirst chars) records top_n ∧
      (dedupFirst chars).Nodup ∧
      (∀ c, c ∈ dedupFirst chars ↔ c ∈ chars) := by
  intro chars records top_n
  refine ⟨?_, ?_, nodup_dedupFirst chars, fun c => mem_dedupFirst c chars⟩
  · unfold build_index_core
    simpa [dedupFirst] using
      keys_foldDict
        (fun ch => topWords (stateGetInner (buildStateFor chars records) ch) top_n)
        chars []
  · unfold build_index_core
    have hst : buildStateFor (dedupFirst chars) records = buildStateFor chars records := by
      unfold buildStateFor
      exact buildState_congr _ _ (fun x => mem_dedupFirst x chars) _
    rw [hst]
    exact (foldDict_dedupFirstAux
      (fun ch => topWords (stateGetInner (buildStateFor chars records) ch) top_n)
      chars [] []
      (fun p hp => absurd hp (List.not_mem_nil p))
      (fun s hs => absurd hs (List.not_mem_nil s))).symm

/-- C10: every aggregated frequency stored in the builder's state is ≥ 0 —
the update `max(state[char].get(word, 0), freq)` clamps below at the
default 0 — and a (character, word) pair all of whose matching records have
negative frequency is stored with aggregated frequency exactly 0, ranking
as if its frequency were 0. -/
theorem claim_C10_negative_clamped_to_zero (chars : List Char)
    (records : List Record) (c : Char) (w : String) (v : Int)
    (hv : stateWordLookup (buildStateFor chars records) c w = some v) :
    0 ≤ v ∧
    ((∀ r ∈ records, MatchesP chars c w r → r.freq < 0) → v = 0) := by
  obtain ⟨_, hval⟩ := stateWordLookup_some_spec chars records c w v hv
  constructor
  · exact hval ▸ le_foldl_max _ 0
  · intro hneg
    rw [hval]
    refine foldl_max_of_le _ 0 (fun f hf => ?_)
    rcases (mem_matchFreqs chars c w _ f).mp hf with ⟨r, hr, hm, rfl⟩
    exact le_of_lt (hneg r ((sortDescBy_perm Record.freq records).mem_iff.mp hr) hm)

/-- C10 witness: the single record (心情, -4) is stored for 心 with
aggregated frequency 0, which is ≥ 0 and equals 0 under the all-negative
hypothesis. -/
theorem claim_C10_negative_clamped_to_zero_witness :
    (0 : Int) ≤ 0 ∧
    ((∀ r ∈ [(⟨"心情", -4⟩ : Record)], MatchesP ['心'] '心' "心情" r → r.freq < 0) →
      (0 : Int) = 0) :=
  claim_C10_negative_clamped_to_zero ['心'] [⟨"心情", -4⟩] '心' "心情" 0 (by decide)
